import Mathlib

/-!
Verification of the semver-git utilities.

The repository contains two Go command-line programs:

* `version_check` (src/scripts/version_check/version_check.go): classifies a
  version string against four anchored regular expressions (release,
  pre-release, post-release, intermediate), tried in that order, printing an
  optional category label and build type and exiting 0 on the first match,
  or exiting 1 when none matches.

* `describe` (src/unnamed/part_000): derives project/module/version/release
  identifiers from the output of `git remote -v` and `git describe`
  subprocesses, with a `PROJECT_NAME` environment override.

Both programs are embedded shallowly below.  Go strings are modelled as
`List Char` (all the data handled by the programs is ASCII, where Go's
byte-wise operations agree with character-wise ones).  Subprocess results
are passed in explicitly: `none` models a failed command (`cmd.Output()`
returning an error), `some out` a successful one with captured stdout
`out`.  Each program's observable behaviour is modelled as the pair
(list of stdout print calls, exit code).
-/

set_option maxHeartbeats 1000000

/-! ### The version_check classifier

The four Go patterns (version_check.go, lines 26–29):

  versionRelease      = `^v?[0-9]+\.[0-9]+\.[0-9]+$`
  versionPrerelease   = `^v?[0-9]+\.[0-9]+\.[0-9]+(\-|\~)(alpha|beta|rc|pre)(\.[0-9]+|\_[a-zA-Z]+(\.[0-9]+)*)*$`
  versionPostrelease  = `^v?[0-9]+\.[0-9]+\.[0-9]+\.(fix|next|post)(\.[0-9]+|\_[a-zA-Z]+(\.[0-9]+)*)*$`
  versionIntermediate = `^v?[0-9]+\.[0-9]+\.[0-9]+\_[a-zA-Z]+(\.[0-9]+|\_[a-zA-Z]+(\.[0-9]+)*)*$`

They are anchored with `^...$` (Go's default anchors: beginning and end of
text), so `MatchString` on them is a whole-string match; we embed them as
`RegularExpression Char` values matched against the whole string with
Mathlib's `rmatch`.
-/

/-- Alternation of single characters: a regex character class such as `[0-9]`. -/
def oneOf : List Char → RegularExpression Char :=
  fun l => l.foldr (fun c r => RegularExpression.char c + r) 0

/-- Concatenation of single characters: a literal word inside a regex. -/
def lit : List Char → RegularExpression Char :=
  fun l => l.foldr (fun c r => RegularExpression.char c * r) 1

/-- One or more repetitions, the regex `X+`. -/
def many1 (r : RegularExpression Char) : RegularExpression Char := r * r.star

/-- Zero or one occurrence, the regex `X?`. -/
def opt (r : RegularExpression Char) : RegularExpression Char := 1 + r

/-- The character class `[0-9]` spelled out. -/
def digitChars : List Char := ['0','1','2','3','4','5','6','7','8','9']

/-- The character class `[a-zA-Z]` spelled out. -/
def alphaChars : List Char :=
  ['a','b','c','d','e','f','g','h','i','j','k','l','m','n','o','p','q','r','s','t','u','v','w','x','y','z',
   'A','B','C','D','E','F','G','H','I','J','K','L','M','N','O','P','Q','R','S','T','U','V','W','X','Y','Z']

/-- The regex `[0-9]+`. -/
def num : RegularExpression Char := many1 (oneOf digitChars)

/-- The regex `[a-zA-Z]+`. -/
def alpha1 : RegularExpression Char := many1 (oneOf alphaChars)

/-- The trailing-qualifier alternative `(\.[0-9]+|\_[a-zA-Z]+(\.[0-9]+)*)`
shared by the pre-release, post-release and intermediate patterns. -/
def qualifier : RegularExpression Char :=
  (RegularExpression.char '.' * num) +
    (RegularExpression.char '_' * (alpha1 * (RegularExpression.char '.' * num).star))

/-- The shared leading part `v?[0-9]+\.[0-9]+\.[0-9]+`. -/
def semverCore : RegularExpression Char :=
  opt (RegularExpression.char 'v') *
    (num * (RegularExpression.char '.' * (num * (RegularExpression.char '.' * num))))

/-- Go `versionRelease`: `^v?[0-9]+\.[0-9]+\.[0-9]+$`. -/
def versionRelease : RegularExpression Char := semverCore

/-- Go `versionPrerelease`:
`^v?[0-9]+\.[0-9]+\.[0-9]+(\-|\~)(alpha|beta|rc|pre)(\.[0-9]+|\_[a-zA-Z]+(\.[0-9]+)*)*$`. -/
def versionPrerelease : RegularExpression Char :=
  semverCore *
    ((RegularExpression.char '-' + RegularExpression.char '~') *
      ((lit "alpha".data + (lit "beta".data + (lit "rc".data + lit "pre".data))) * qualifier.star))

/-- Go `versionPostrelease`:
`^v?[0-9]+\.[0-9]+\.[0-9]+\.(fix|next|post)(\.[0-9]+|\_[a-zA-Z]+(\.[0-9]+)*)*$`. -/
def versionPostrelease : RegularExpression Char :=
  semverCore *
    (RegularExpression.char '.' *
      ((lit "fix".data + (lit "next".data + lit "post".data)) * qualifier.star))

/-- Go `versionIntermediate`:
`^v?[0-9]+\.[0-9]+\.[0-9]+\_[a-zA-Z]+(\.[0-9]+|\_[a-zA-Z]+(\.[0-9]+)*)*$`. -/
def versionIntermediate : RegularExpression Char :=
  semverCore * (RegularExpression.char '_' * (alpha1 * qualifier.star))

/-- Go `checkVersion` (version_check.go, lines 80–124): try the four patterns
in order; on the first match print the category label if the `-t` flag is set,
then the cmake build type if the `-b` flag is set, and exit 0; if none
matches, exit 1 printing nothing (the only failure report is the exit code).
Result: (stdout print calls, exit code). -/
def checkVersion (typeFlag buildTypeFlag : Bool) (versionStr : List Char) : List (List Char) × Nat :=
  if versionRelease.rmatch versionStr then
    ((if typeFlag then ["Release".data] else []) ++ (if buildTypeFlag then ["Release".data] else []), 0)
  else if versionPrerelease.rmatch versionStr then
    ((if typeFlag then ["Pre release".data] else []) ++ (if buildTypeFlag then ["Debug".data] else []), 0)
  else if versionPostrelease.rmatch versionStr then
    ((if typeFlag then ["Post release".data] else []) ++ (if buildTypeFlag then ["Debug".data] else []), 0)
  else if versionIntermediate.rmatch versionStr then
    ((if typeFlag then ["Intermediate release".data] else []) ++ (if buildTypeFlag then ["Debug".data] else []), 0)
  else ([], 1)

/-- The argument-handling tail of version_check's `main` (lines 165–172), after
the help/version/rules flags (peripheral, modelled as unset) have fallen
through: with no positional argument it exits 1 printing nothing on stdout
(the error print at line 168 is commented out in the source); otherwise it
runs `checkVersion` on the first argument. -/
def vcMain (typeFlag buildTypeFlag : Bool) (args : List (List Char)) : List (List Char) × Nat :=
  match args with
  | [] => ([], 1)
  | a :: _ => checkVersion typeFlag buildTypeFlag a

/-! ### Character-level facts about the four patterns

Two syntactic analyses of a regex AST drive the easy disjointness pairs of
the classifier: `onlyCharsB p r` holds when every character atom of `r`
satisfies `p` (so every matched string uses only such characters), and
`needsB p r` holds when every way of matching `r` must go through an atom
satisfying `p` (so every matched string contains such a character). -/

/-- Every character atom of the regex satisfies `p`. -/
def onlyCharsB (p : Char → Bool) : RegularExpression Char → Bool
  | .zero => true
  | .epsilon => true
  | .char c => p c
  | .plus a b => onlyCharsB p a && onlyCharsB p b
  | .comp a b => onlyCharsB p a && onlyCharsB p b
  | .star a => onlyCharsB p a

/-- Every match of the regex necessarily contains a character satisfying `p`. -/
def needsB (p : Char → Bool) : RegularExpression Char → Bool
  | .zero => true
  | .epsilon => false
  | .char c => p c
  | .plus a b => needsB p a && needsB p b
  | .comp a b => needsB p a || needsB p b
  | .star _ => false

theorem onlyCharsB_sound (p : Char → Bool) :
    ∀ (r : RegularExpression Char), onlyCharsB p r = true →
      ∀ s : List Char, r.rmatch s = true → ∀ c ∈ s, p c = true := by
  intro r
  induction r with
  | zero =>
    intro _ s hs
    rw [RegularExpression.zero_def, RegularExpression.zero_rmatch] at hs
    exact absurd hs (by simp)
  | epsilon =>
    intro _ s hs c hc
    rw [RegularExpression.one_def, RegularExpression.one_rmatch_iff] at hs
    subst hs; simp at hc
  | char a =>
    intro hp s hs c hc
    rw [RegularExpression.char_rmatch_iff] at hs
    subst hs
    simp at hc; subst hc; exact hp
  | plus a b iha ihb =>
    intro hp s hs c hc
    simp only [onlyCharsB, Bool.and_eq_true] at hp
    rw [RegularExpression.plus_def] at hs
    rw [RegularExpression.add_rmatch_iff] at hs
    rcases hs with hs | hs
    · exact iha hp.1 s hs c hc
    · exact ihb hp.2 s hs c hc
  | comp a b iha ihb =>
    intro hp s hs c hc
    simp only [onlyCharsB, Bool.and_eq_true] at hp
    rw [RegularExpression.comp_def] at hs
    rw [RegularExpression.mul_rmatch_iff] at hs
    obtain ⟨t, u, rfl, ht, hu⟩ := hs
    rcases List.mem_append.1 hc with hc | hc
    · exact iha hp.1 t ht c hc
    · exact ihb hp.2 u hu c hc
  | star a iha =>
    intro hp s hs c hc
    rw [RegularExpression.star_rmatch_iff] at hs
    obtain ⟨S, rfl, hS⟩ := hs
    obtain ⟨t, htS, hct⟩ := List.mem_flatten.1 hc
    exact iha hp t (hS t htS).2 c hct

theorem needsB_sound (p : Char → Bool) :
    ∀ (r : RegularExpression Char), needsB p r = true →
      ∀ s : List Char, r.rmatch s = true → ∃ c ∈ s, p c = true := by
  intro r
  induction r with
  | zero =>
    intro _ s hs
    rw [RegularExpression.zero_def, RegularExpression.zero_rmatch] at hs
    exact absurd hs (by simp)
  | epsilon =>
    intro hn
    exact absurd hn (by simp [needsB])
  | char a =>
    intro hp s hs
    rw [RegularExpression.char_rmatch_iff] at hs
    subst hs
    exact ⟨a, by simp, hp⟩
  | plus a b iha ihb =>
    intro hp s hs
    simp only [needsB, Bool.and_eq_true] at hp
    rw [RegularExpression.plus_def] at hs
    rw [RegularExpression.add_rmatch_iff] at hs
    rcases hs with hs | hs
    · exact iha hp.1 s hs
    · exact ihb hp.2 s hs
  | comp a b iha ihb =>
    intro hp s hs
    simp only [needsB, Bool.or_eq_true] at hp
    rw [RegularExpression.comp_def] at hs
    rw [RegularExpression.mul_rmatch_iff] at hs
    obtain ⟨t, u, rfl, ht, hu⟩ := hs
    rcases hp with hp | hp
    · obtain ⟨c, hc, hpc⟩ := iha hp t ht
      exact ⟨c, List.mem_append.2 (Or.inl hc), hpc⟩
    · obtain ⟨c, hc, hpc⟩ := ihb hp u hu
      exact ⟨c, List.mem_append.2 (Or.inr hc), hpc⟩
  | star a _ =>
    intro hn
    exact absurd hn (by simp [needsB])

/-- If one regex needs a character satisfying `p` and another admits only
characters violating `p`, no string matches both. -/
theorem rmatch_disjoint_of_chars (p : Char → Bool) (A B : RegularExpression Char)
    (hA : needsB p A = true) (hB : onlyCharsB (fun c => !(p c)) B = true)
    (s : List Char) (hsA : A.rmatch s = true) (hsB : B.rmatch s = true) : False := by
  obtain ⟨c, hc, hpc⟩ := needsB_sound p A hA s hsA
  have := onlyCharsB_sound (fun c => !(p c)) B hB s hsB c hc
  simp [hpc] at this

/-! ### Structural decomposition of matches of the shared leading part -/

theorem oneOf_rmatch {s : List Char} :
    ∀ {l : List Char}, (oneOf l).rmatch s = true → ∃ c ∈ l, s = [c] := by
  intro l
  induction l with
  | nil =>
    intro h
    rw [oneOf, List.foldr_nil, RegularExpression.zero_rmatch] at h
    exact absurd h (by simp)
  | cons c t ih =>
    intro h
    rw [oneOf, List.foldr_cons, RegularExpression.add_rmatch_iff] at h
    rcases h with h | h
    · rw [RegularExpression.char_rmatch_iff] at h
      exact ⟨c, by simp, h⟩
    · obtain ⟨d, hd, hs⟩ := ih h
      exact ⟨d, by simp [hd], hs⟩

theorem lit_rmatch :
    ∀ {w s : List Char}, (lit w).rmatch s = true → s = w := by
  intro w
  induction w with
  | nil =>
    intro s h
    rw [lit, List.foldr_nil, RegularExpression.one_rmatch_iff] at h
    exact h
  | cons c t ih =>
    intro s h
    rw [lit, List.foldr_cons, RegularExpression.mul_rmatch_iff] at h
    obtain ⟨t1, u, rfl, ht1, hu⟩ := h
    rw [RegularExpression.char_rmatch_iff] at ht1
    subst ht1
    rw [ih hu]
    rfl

theorem num_rmatch {s : List Char} (h : num.rmatch s = true) :
    s ≠ [] ∧ ∀ c ∈ s, digitChars.contains c = true := by
  have honly : onlyCharsB (fun c => digitChars.contains c) num = true := by decide
  refine ⟨?_, onlyCharsB_sound _ num honly s h⟩
  rw [num, many1, RegularExpression.mul_rmatch_iff] at h
  obtain ⟨t, u, rfl, ht, _⟩ := h
  obtain ⟨c, _, rfl⟩ := oneOf_rmatch ht
  simp

/-- Any match of `semverCore * R` splits as an optional leading `v`, three
nonempty digit runs separated by dots, and a remainder matching `R`. -/
theorem semverCore_comp_decomp (R : RegularExpression Char) (s : List Char)
    (h : (semverCore * R).rmatch s = true) :
    ∃ w n1 n2 n3 rest,
      s = w ++ (n1 ++ '.' :: (n2 ++ '.' :: (n3 ++ rest))) ∧
      (w = [] ∨ w = ['v']) ∧
      (n1 ≠ [] ∧ ∀ c ∈ n1, digitChars.contains c = true) ∧
      (n2 ≠ [] ∧ ∀ c ∈ n2, digitChars.contains c = true) ∧
      (n3 ≠ [] ∧ ∀ c ∈ n3, digitChars.contains c = true) ∧
      R.rmatch rest = true := by
  rw [RegularExpression.mul_rmatch_iff] at h
  obtain ⟨sv, rest, rfl, hsv, hrest⟩ := h
  rw [semverCore, RegularExpression.mul_rmatch_iff] at hsv
  obtain ⟨w, t1, rfl, hw, ht1⟩ := hsv
  rw [RegularExpression.mul_rmatch_iff] at ht1
  obtain ⟨n1, t2, rfl, hn1, ht2⟩ := ht1
  rw [RegularExpression.mul_rmatch_iff] at ht2
  obtain ⟨d1, t3, rfl, hd1, ht3⟩ := ht2
  rw [RegularExpression.char_rmatch_iff] at hd1
  subst hd1
  rw [RegularExpression.mul_rmatch_iff] at ht3
  obtain ⟨n2, t4, rfl, hn2, ht4⟩ := ht3
  rw [RegularExpression.mul_rmatch_iff] at ht4
  obtain ⟨d2, n3, rfl, hd2, hn3⟩ := ht4
  rw [RegularExpression.char_rmatch_iff] at hd2
  subst hd2
  have hwv : w = [] ∨ w = ['v'] := by
    rw [opt, RegularExpression.add_rmatch_iff] at hw
    rcases hw with hw | hw
    · exact Or.inl ((RegularExpression.one_rmatch_iff _).1 hw)
    · exact Or.inr ((RegularExpression.char_rmatch_iff _ _).1 hw)
  exact ⟨w, n1, n2, n3, rest, by simp [List.append_assoc], hwv,
    num_rmatch hn1, num_rmatch hn2, num_rmatch hn3, hrest⟩

/-- First character that is neither a digit nor a dot. -/
def firstNonNum : List Char → Option Char
  | [] => none
  | c :: t => if digitChars.contains c || c == '.' then firstNonNum t else some c

/-- First character that is neither a digit nor a dot, after skipping one
optional leading `v`. -/
def firstSpecial : List Char → Option Char
  | [] => none
  | c :: t => if c == 'v' then firstNonNum t else firstNonNum (c :: t)

theorem firstNonNum_digits {l t : List Char}
    (h : ∀ c ∈ l, digitChars.contains c = true) :
    firstNonNum (l ++ t) = firstNonNum t := by
  induction l with
  | nil => rfl
  | cons c l ih =>
    have hc : digitChars.contains c = true := h c (by simp)
    simp only [List.cons_append, firstNonNum, hc, Bool.true_or, if_pos]
    exact ih (fun d hd => h d (by simp [hd]))

theorem firstNonNum_dot {t : List Char} : firstNonNum ('.' :: t) = firstNonNum t := by
  simp [firstNonNum]

theorem firstNonNum_cons_special {c : Char} {t : List Char}
    (h : (digitChars.contains c || c == '.') = false) :
    firstNonNum (c :: t) = some c := by
  simp only [firstNonNum, h]
  simp

theorem digit_beq_v_eq_false {c : Char} (h : digitChars.contains c = true) :
    (c == 'v') = false := by
  cases hc : c == 'v' with
  | false => rfl
  | true =>
    have : c = 'v' := by simpa using hc
    subst this
    exact absurd h (by decide)

theorem firstSpecial_semver (w n1 n2 n3 r : List Char)
    (hw : w = [] ∨ w = ['v'])
    (h1 : n1 ≠ [] ∧ ∀ c ∈ n1, digitChars.contains c = true)
    (h2 : ∀ c ∈ n2, digitChars.contains c = true)
    (h3 : ∀ c ∈ n3, digitChars.contains c = true) :
    firstSpecial (w ++ (n1 ++ '.' :: (n2 ++ '.' :: (n3 ++ r)))) = firstNonNum r := by
  have core : firstNonNum (n1 ++ '.' :: (n2 ++ '.' :: (n3 ++ r))) = firstNonNum r := by
    rw [firstNonNum_digits h1.2, firstNonNum_dot, firstNonNum_digits h2,
      firstNonNum_dot, firstNonNum_digits h3]
  rcases hw with rfl | rfl
  · rw [List.nil_append]
    obtain ⟨c, n1', rfl⟩ := List.exists_cons_of_ne_nil h1.1
    have hc : digitChars.contains c = true := h1.2 c (by simp)
    rw [List.cons_append, firstSpecial, if_neg (by simp [digit_beq_v_eq_false hc])]
    rw [List.cons_append] at core
    exact core
  · rw [List.singleton_append, firstSpecial, if_pos (by simp)]
    exact core

/-- Every string matching the intermediate pattern has `_` as its first
non-digit non-dot character (after the optional leading `v`). -/
theorem versionIntermediate_firstSpecial {s : List Char}
    (h : versionIntermediate.rmatch s = true) : firstSpecial s = some '_' := by
  rw [versionIntermediate] at h
  obtain ⟨w, n1, n2, n3, rest, rfl, hw, h1, h2, h3, hrest⟩ :=
    semverCore_comp_decomp _ _ h
  rw [RegularExpression.mul_rmatch_iff] at hrest
  obtain ⟨t, u, rfl, ht, _⟩ := hrest
  rw [RegularExpression.char_rmatch_iff] at ht
  subst ht
  rw [firstSpecial_semver w n1 n2 n3 _ hw h1 h2.2 h3.2, List.singleton_append]
  exact firstNonNum_cons_special (by decide)

/-- Every string matching the post-release pattern has `f`, `n` or `p` as its
first non-digit non-dot character (after the optional leading `v`). -/
theorem versionPostrelease_firstSpecial {s : List Char}
    (h : versionPostrelease.rmatch s = true) :
    firstSpecial s = some 'f' ∨ firstSpecial s = some 'n' ∨ firstSpecial s = some 'p' := by
  rw [versionPostrelease] at h
  obtain ⟨w, n1, n2, n3, rest, rfl, hw, h1, h2, h3, hrest⟩ :=
    semverCore_comp_decomp _ _ h
  rw [RegularExpression.mul_rmatch_iff] at hrest
  obtain ⟨t, u, rfl, ht, hu⟩ := hrest
  rw [RegularExpression.char_rmatch_iff] at ht
  subst ht
  rw [RegularExpression.mul_rmatch_iff] at hu
  obtain ⟨kw, tail, rfl, hkw, _⟩ := hu
  rw [firstSpecial_semver w n1 n2 n3 _ hw h1 h2.2 h3.2, List.singleton_append,
    firstNonNum_dot]
  rw [RegularExpression.add_rmatch_iff] at hkw
  rcases hkw with hkw | hkw
  · rw [lit_rmatch hkw]
    exact Or.inl (firstNonNum_cons_special (by decide))
  · rw [RegularExpression.add_rmatch_iff] at hkw
    rcases hkw with hkw | hkw
    · rw [lit_rmatch hkw]
      exact Or.inr (Or.inl (firstNonNum_cons_special (by decide)))
    · rw [lit_rmatch hkw]
      exact Or.inr (Or.inr (firstNonNum_cons_special (by decide)))

/-! ### Claim C5: mutual exclusivity of the four classifier patterns -/

/-- C5: for every version string, at most one of the four classification
patterns (release, pre-release, post-release, intermediate) matches it; in
particular no string is matched by both the post-release pattern and the
intermediate pattern. -/
theorem c5_patterns_mutually_exclusive (s : List Char) :
    ¬(versionRelease.rmatch s = true ∧ versionPrerelease.rmatch s = true) ∧
    ¬(versionRelease.rmatch s = true ∧ versionPostrelease.rmatch s = true) ∧
    ¬(versionRelease.rmatch s = true ∧ versionIntermediate.rmatch s = true) ∧
    ¬(versionPrerelease.rmatch s = true ∧ versionPostrelease.rmatch s = true) ∧
    ¬(versionPrerelease.rmatch s = true ∧ versionIntermediate.rmatch s = true) ∧
    ¬(versionPostrelease.rmatch s = true ∧ versionIntermediate.rmatch s = true) := by
  refine ⟨?_, ?_, ?_, ?_, ?_, ?_⟩
  · rintro ⟨h1, h2⟩
    exact rmatch_disjoint_of_chars (fun c => c == '-' || c == '~')
      versionPrerelease versionRelease (by decide) (by decide) s h2 h1
  · rintro ⟨h1, h2⟩
    exact rmatch_disjoint_of_chars (fun c => c == 'f' || c == 'n' || c == 'p')
      versionPostrelease versionRelease (by decide) (by decide) s h2 h1
  · rintro ⟨h1, h2⟩
    exact rmatch_disjoint_of_chars (fun c => c == '_')
      versionIntermediate versionRelease (by decide) (by decide) s h2 h1
  · rintro ⟨h1, h2⟩
    exact rmatch_disjoint_of_chars (fun c => c == '-' || c == '~')
      versionPrerelease versionPostrelease (by decide) (by decide) s h1 h2
  · rintro ⟨h1, h2⟩
    exact rmatch_disjoint_of_chars (fun c => c == '-' || c == '~')
      versionPrerelease versionIntermediate (by decide) (by decide) s h1 h2
  · rintro ⟨h1, h2⟩
    have hp := versionPostrelease_firstSpecial h1
    have hi := versionIntermediate_firstSpecial h2
    rcases hp with hp | hp | hp <;> rw [hp] at hi <;> exact absurd hi (by decide)

/-! ### Claims C1 and C9: classifier behaviour -/

/-- C1: the classifier tests its version string against the four patterns in
strict precedence order (release, pre-release, post-release, intermediate)
and stops at the first match, printing the category label when the type flag
is set and the build type (Release for category 1, Debug for categories 2-4)
when the build-type flag is set, then exits 0; in particular `1.2.3` is
Release/Release, `1.2.3-beta.1` is Pre release/Debug, `1.2.3.fix.2` is
Post release/Debug and `1.2.3_patched.1` is Intermediate release/Debug. -/
theorem c1_classifier_precedence_and_examples (t b : Bool) :
    (∀ s : List Char, versionRelease.rmatch s = true →
      checkVersion t b s =
        ((if t then ["Release".data] else []) ++ (if b then ["Release".data] else []), 0)) ∧
    (∀ s : List Char, versionRelease.rmatch s = false → versionPrerelease.rmatch s = true →
      checkVersion t b s =
        ((if t then ["Pre release".data] else []) ++ (if b then ["Debug".data] else []), 0)) ∧
    (∀ s : List Char, versionRelease.rmatch s = false → versionPrerelease.rmatch s = false →
        versionPostrelease.rmatch s = true →
      checkVersion t b s =
        ((if t then ["Post release".data] else []) ++ (if b then ["Debug".data] else []), 0)) ∧
    (∀ s : List Char, versionRelease.rmatch s = false → versionPrerelease.rmatch s = false →
        versionPostrelease.rmatch s = false → versionIntermediate.rmatch s = true →
      checkVersion t b s =
        ((if t then ["Intermediate release".data] else []) ++ (if b then ["Debug".data] else []), 0)) ∧
    checkVersion t b "1.2.3".data =
      ((if t then ["Release".data] else []) ++ (if b then ["Release".data] else []), 0) ∧
    checkVersion t b "1.2.3-beta.1".data =
      ((if t then ["Pre release".data] else []) ++ (if b then ["Debug".data] else []), 0) ∧
    checkVersion t b "1.2.3.fix.2".data =
      ((if t then ["Post release".data] else []) ++ (if b then ["Debug".data] else []), 0) ∧
    checkVersion t b "1.2.3_patched.1".data =
      ((if t then ["Intermediate release".data] else []) ++ (if b then ["Debug".data] else []), 0) := by
  have g1 : ∀ s : List Char, versionRelease.rmatch s = true →
      checkVersion t b s =
        ((if t then ["Release".data] else []) ++ (if b then ["Release".data] else []), 0) := by
    intro s h1
    simp [checkVersion, h1]
  have g2 : ∀ s : List Char, versionRelease.rmatch s = false → versionPrerelease.rmatch s = true →
      checkVersion t b s =
        ((if t then ["Pre release".data] else []) ++ (if b then ["Debug".data] else []), 0) := by
    intro s h1 h2
    simp [checkVersion, h1, h2]
  have g3 : ∀ s : List Char, versionRelease.rmatch s = false → versionPrerelease.rmatch s = false →
      versionPostrelease.rmatch s = true →
      checkVersion t b s =
        ((if t then ["Post release".data] else []) ++ (if b then ["Debug".data] else []), 0) := by
    intro s h1 h2 h3
    simp [checkVersion, h1, h2, h3]
  have g4 : ∀ s : List Char, versionRelease.rmatch s = false → versionPrerelease.rmatch s = false →
      versionPostrelease.rmatch s = false → versionIntermediate.rmatch s = true →
      checkVersion t b s =
        ((if t then ["Intermediate release".data] else []) ++ (if b then ["Debug".data] else []), 0) := by
    intro s h1 h2 h3 h4
    simp [checkVersion, h1, h2, h3, h4]
  refine ⟨g1, g2, g3, g4, ?_, ?_, ?_, ?_⟩
  · exact g1 _ (by decide)
  · exact g2 _ (by decide) (by decide)
  · exact g3 _ (by decide) (by decide) (by decide)
  · exact g4 _ (by decide) (by decide) (by decide) (by decide)

/-- Witness for C1: the first (release) clause applied at the concrete
input `2.0.1` with both flags set. -/
theorem c1_classifier_precedence_and_examples_witness :
    checkVersion true true "2.0.1".data = (["Release".data, "Release".data], 0) :=
  (c1_classifier_precedence_and_examples true true).1 "2.0.1".data (by decide)

/-- C9: for every version string matched by none of the four patterns, and
likewise when no version-string argument is given, version_check exits with
status 1 and produces no stdout output; it exits 0 whenever any category
matches. -/
theorem c9_no_match_exit_codes (t b : Bool) (s : List Char) :
    vcMain t b [] = ([], 1) ∧
    (versionRelease.rmatch s = false → versionPrerelease.rmatch s = false →
      versionPostrelease.rmatch s = false → versionIntermediate.rmatch s = false →
      vcMain t b [s] = ([], 1)) ∧
    ((versionRelease.rmatch s = true ∨ versionPrerelease.rmatch s = true ∨
      versionPostrelease.rmatch s = true ∨ versionIntermediate.rmatch s = true) →
      (vcMain t b [s]).2 = 0) := by
  refine ⟨rfl, ?_, ?_⟩
  · intro h1 h2 h3 h4
    simp [vcMain, checkVersion, h1, h2, h3, h4]
  · intro h
    cases hrel : versionRelease.rmatch s <;>
      cases hpre : versionPrerelease.rmatch s <;>
      cases hpost : versionPostrelease.rmatch s <;>
      cases hint : versionIntermediate.rmatch s <;>
      simp_all [vcMain, checkVersion]

/-- Witness for C9: `1.2` matches no category and exits 1 with no output;
`1.2.3` matches and exits 0. -/
theorem c9_no_match_exit_codes_witness :
    vcMain true true ["1.2".data] = ([], 1) ∧ (vcMain true true ["1.2.3".data]).2 = 0 :=
  ⟨(c9_no_match_exit_codes true true "1.2".data).2.1
      (by decide) (by decide) (by decide) (by decide),
    (c9_no_match_exit_codes true true "1.2.3".data).2.2 (Or.inl (by decide))⟩

/-! ### The describe tool (src/unnamed/part_000)

Embeddings of the Go standard-library string operations the tool uses, over
`List Char`.  Where an operation is used only in a restricted form (single
character separators, a fixed nonempty search string), the embedding models
that restricted form, noted in each doc comment. -/

/-- Go `unicode.IsSpace` restricted to the ASCII range, which covers all
characters handled by the tool. -/
def goIsSpace (c : Char) : Bool :=
  c == ' ' || c == '\t' || c == '\n' || c == '\r' || c == '\x0b' || c == '\x0c'

/-- Prepend a character to the first piece of a split result. -/
def consHead (c : Char) : List (List Char) → List (List Char)
  | [] => [[c]]
  | h :: t => (c :: h) :: t

/-- Go `strings.Split(s, sep)` for a one-character separator: the pieces of
`s` between occurrences of `sep` (always at least one piece). -/
def splitChar (sep : Char) : List Char → List (List Char)
  | [] => [[]]
  | c :: t => if c == sep then [] :: splitChar sep t else consHead c (splitChar sep t)

/-- Go `strings.SplitN(s, sep, 2)` for a one-character separator: split at
the first occurrence only, yielding two pieces when `sep` occurs and one
piece otherwise. -/
def splitN2 (sep : Char) : List Char → List (List Char)
  | [] => [[]]
  | c :: t => if c == sep then [[], t] else consHead c (splitN2 sep t)

/-- Accumulator loop of `fields`: `acc` is the current word, reversed. -/
def fieldsAux : List Char → List Char → List (List Char)
  | [], acc => if acc.isEmpty then [] else [acc.reverse]
  | c :: t, acc =>
    if goIsSpace c then
      (if acc.isEmpty then fieldsAux t [] else acc.reverse :: fieldsAux t [])
    else fieldsAux t (c :: acc)

/-- Go `strings.Fields`: the maximal runs of non-whitespace characters. -/
def fields (l : List Char) : List (List Char) := fieldsAux l []

/-- Go `strings.Contains(s, sub)`: `sub` occurs as a contiguous substring. -/
def containsSub (sub : List Char) : List Char → Bool
  | [] => sub.isEmpty
  | c :: t => sub.isPrefixOf (c :: t) || containsSub sub t

/-- Go `strings.TrimSuffix(s, suf)`. -/
def trimSuffix (suf l : List Char) : List Char :=
  if suf.isSuffixOf l then l.take (l.length - suf.length) else l

/-- Go `strings.TrimPrefix(s, "v")`, the only trim-prefix call in the tool. -/
def trimPrefixV : List Char → List Char
  | 'v' :: t => t
  | l => l

/-- Go `strings.TrimSpace`. -/
def trimSpace (l : List Char) : List Char :=
  ((l.dropWhile goIsSpace).reverse.dropWhile goIsSpace).reverse

/-- Go `strings.Replace(s, old, new, 1)` for a nonempty `old` (the tool uses
`"-g"` and `"-"`): replace the leftmost occurrence of `old`, if any. -/
def replaceFirst (old new : List Char) : List Char → List Char
  | [] => []
  | c :: t =>
    if old.isPrefixOf (c :: t) then new ++ (c :: t).drop old.length
    else c :: replaceFirst old new t

/-- Go `strings.ReplaceAll(s, old, new)` for one-character `old` and `new`
(the tool replaces `"/"` by `"-"`). -/
def replaceAllChar (o n : Char) (l : List Char) : List Char :=
  l.map fun c => if c == o then n else c

/-- Go `path/filepath.Base` (Unix separator): strip trailing slashes and
return the part after the last remaining slash; `"."` for the empty path and
`"/"` for an all-slash path. -/
def basename (l : List Char) : List Char :=
  if l.isEmpty then ['.']
  else
    let t := (l.reverse.dropWhile fun c => c == '/').reverse
    if t.isEmpty then ['/']
    else (t.reverse.takeWhile fun c => !(c == '/')).reverse

/-- Byte-wise lexicographic order on ASCII strings, as used by Go
`sort.Strings` via `strings.Compare`. -/
def lexLe : List Char → List Char → Bool
  | [], _ => true
  | _ :: _, [] => false
  | x :: xs, y :: ys => if x == y then lexLe xs ys else decide (x < y)

/-- Go `sort.Strings`: sort ascending in lexicographic order. -/
def sortStrings (l : List (List Char)) : List (List Char) :=
  List.insertionSort (fun a b => lexLe a b = true) l

/-- The character class `[a-f0-9]` of the release-number strip pattern. -/
def isHexLower (c : Char) : Bool :=
  digitChars.contains c || ['a','b','c','d','e','f'].contains c

/-- Whether a string is exactly `-g` followed by one or more `[a-f0-9]`
characters, i.e. matches `-g[a-f0-9]+$` when placed at the end of the text. -/
def dashGTail : List Char → Bool
  | c1 :: c2 :: h => c1 == '-' && c2 == 'g' && !h.isEmpty && h.all isHexLower
  | _ => false

/-- Go `regexp.MustCompile(`-g[a-f0-9]+$`).ReplaceAllString(s, "")`: the
pattern is anchored at end of text (RE2 `$` does not match before a final
newline), so the only possible match is a suffix `-g<hex>` covering the very
end of the string; the leftmost such suffix is removed. -/
def stripDashG : List Char → List Char
  | [] => []
  | c :: t => if dashGTail (c :: t) then [] else c :: stripDashG t

/-- The subprocess outputs a describe-tool run can observe.  Each field holds
the captured stdout of one git invocation shape (`none` models a failed
command): `git remote -v`; `git describe --match v[0-9]* --abbrev=2 --tags
HEAD` (release); `--abbrev=0 --tags HEAD` (tag strategy); `--abbrev=2
--always --tags` (abbrev strategy); `--abbrev=0 --always --tags` (rank
strategy). -/
structure GitOut where
  remoteV : Option (List Char)
  describeRelease : Option (List Char)
  describeTag : Option (List Char)
  describeAbbrev : Option (List Char)
  describeRank : Option (List Char)

/-- The per-line body of the remote-scanning loops: return the first line's
extraction result, `none` meaning `continue` to the next line. -/
def scanLines (f : List Char → Option (List Char)) : List (List Char) → List Char
  | [] => []
  | line :: rest =>
    match f line with
    | some r => r
    | none => scanLines f rest

/-- One iteration of the loop in Go `Project` (part_000, lines 91–120):
on a line containing `fetch`, split into whitespace fields and take field 0
(the source does `url := parts[0]`, which on a real `git remote -v` line is
the remote name, not the URL); if it contains `://` take the last two
`/`-segments joined by `/`, otherwise the part after the first `:`; then
strip a `.git` suffix and turn `/` into `-`. -/
def projectLine (line : List Char) : Option (List Char) :=
  if containsSub "fetch".data line then
    let parts := fields line
    if parts.length < 2 then none
    else
      let url := parts.getD 0 []
      let repoPath? : Option (List Char) :=
        if containsSub "://".data url then
          let pathParts := splitChar '/' url
          if pathParts.length < 2 then none
          else some (List.intercalate ['/'] (pathParts.drop (pathParts.length - 2)))
        else
          match splitN2 ':' url with
          | [_, after] => some after
          | _ => none
      match repoPath? with
      | none => none
      | some repoPath => some (replaceAllChar '/' '-' (trimSuffix ".git".data repoPath))
  else none

/-- Go `Project` (part_000, lines 76–123): `PROJECT_NAME` overrides when
nonempty; otherwise scan the `git remote -v` output for a `fetch` line.
Note the source splits the output on the character `n`, not on a newline
(line 90: `strings.Split(string(output), "n")`), so the pieces scanned are
`n`-separated fragments, not lines. -/
def Project (projectName : List Char) (git : GitOut) : List Char :=
  if projectName ≠ [] then projectName
  else
    match git.remoteV with
    | none => []
    | some output => scanLines projectLine (splitChar 'n' output)

/-- One iteration of the loop in Go `Module` (part_000, lines 140–155): on a
line containing `fetch`, split into whitespace fields, take field 1 (the
URL), split at the first `:`, strip a `.git` suffix from the part after it,
and take its basename. -/
def moduleLine (line : List Char) : Option (List Char) :=
  if containsSub "fetch".data line then
    let parts := fields line
    if parts.length < 2 then none
    else
      let url := parts.getD 1 []
      match splitN2 ':' url with
      | [_, after] => some (basename (trimSuffix ".git".data after))
      | _ => none
  else none

/-- Go `Module` (part_000, lines 125–159), primed because Mathlib reserves
the name `Module`: `PROJECT_NAME` overrides when nonempty; otherwise scan
the lines of the `git remote -v` output (split on a real newline, line 139)
for a `fetch` line. -/
def Module' (projectName : List Char) (git : GitOut) : List Char :=
  if projectName ≠ [] then projectName
  else
    match git.remoteV with
    | none => []
    | some output => scanLines moduleLine (splitChar '\n' output)

/-- Go `Release` (part_000, lines 161–184): with release tracking enabled
(`-r`), strip a trailing `-g<hex>` via the anchored pattern, split on `-`,
and return the second-to-last piece when more than one remains, else `"0"`;
with tracking disabled, return `"1"`. -/
def Release (release : Bool) (git : GitOut) : List Char :=
  if release then
    match git.describeRelease with
    | none => []
    | some output =>
      let result := stripDashG output
      let parts := splitChar '-' result
      if parts.length > 1 then parts.getD (parts.length - 2) [] else "0".data
  else "1".data

/-- Go `versionTag` (part_000, lines 202–216): trim whitespace, strip a
leading `v`, replace the first `-` by `~`. -/
def versionTag (git : GitOut) : List Char :=
  match git.describeTag with
  | none => []
  | some output => replaceFirst ['-'] ['~'] (trimPrefixV (trimSpace output))

/-- The collection loop shared by `versionAbbrev` and `versionRank`: keep
the pieces beginning with `v`, transformed by `f`, in order. -/
def collectV (f : List Char → List Char) : List (List Char) → List (List Char)
  | [] => []
  | line :: rest =>
    if ['v'].isPrefixOf line then f line :: collectV f rest else collectV f rest

/-- Go `versionAbbrev` (part_000, lines 218–244): trim the output, split on
the character `n` (line 227 splits on `"n"`, not a newline), keep pieces
beginning with `v`, on each remove the first occurrence of the literal `-g`
then turn the first `-` into `~`, sort ascending, and return the greatest
entry with a leading `v` stripped (empty when nothing was collected). -/
def versionAbbrev (git : GitOut) : List Char :=
  match git.describeAbbrev with
  | none => []
  | some output =>
    let pieces := splitChar 'n' (trimSpace output)
    let versions := collectV (fun line => replaceFirst ['-'] ['~'] (replaceFirst ['-', 'g'] [] line)) pieces
    if versions.isEmpty then []
    else trimPrefixV ((sortStrings versions).getLastD [])

/-- Go `versionRank` (part_000, lines 246–270): like `versionAbbrev` (with
the same split-on-`n` behaviour at line 255) but without any rewriting of
the collected pieces. -/
def versionRank (git : GitOut) : List Char :=
  match git.describeRank with
  | none => []
  | some output =>
    let pieces := splitChar 'n' (trimSpace output)
    let versions := collectV (fun line => line) pieces
    if versions.isEmpty then []
    else trimPrefixV ((sortStrings versions).getLastD [])

/-- Go `Version` (part_000, lines 186–200): dispatch on the versioning
strategy; `none` models the `os.Exit(1)` on an unknown strategy. -/
def Version (versioning : List Char) (git : GitOut) : Option (List Char) :=
  if versioning = "tag".data then some (versionTag git)
  else if versioning = "abbrev".data then some (versionAbbrev git)
  else if versioning = "rank".data then some (versionRank git)
  else none

/-- The lines printed by Go `Help` (part_000, lines 58–74). -/
def helpLines : List (List Char) :=
  ["describe project version and release from git describe".data,
   "usage: describe [-h|--help] [-v|--version] [-r|--release] project|version|release|full".data,
   "options:".data,
   "    -h|--help      print this help and exit".data,
   "    -V|--version   print version number".data,
   "    -d|--debug     debug output".data,
   "    --no-color     no color output".data,
   "    -r|--release   use commit number as release number, default is no and release is 1".data,
   "    -s|--strategy  versioning strategy type: tag, abbrev, rank; default is tag".data,
   "commands:".data,
   "    project        print project name".data,
   "    module         print module name".data,
   "    version        print project version".data,
   "    release        print project release".data,
   "    full           print full project name-version-release".data]

/-- Go `main` of the describe tool (part_000, lines 272–353) after flag
parsing, as a function of the parsed flags, positional arguments,
`PROJECT_NAME` and the subprocess outputs: help and version flags print and
exit 0; a missing command prints an error line and exits 1; an unknown
strategy exits 1 before any output; then the command dispatches, unknown
commands exiting 1 without output.  Result: (stdout print calls, exit
code). -/
def describeMain (helpFlag versionFlag releaseFlag : Bool) (strategy : List Char)
    (args : List (List Char)) (projectName : List Char) (git : GitOut) :
    List (List Char) × Nat :=
  if helpFlag then (helpLines, 0)
  else if versionFlag then (["0.4".data], 0)
  else if args.isEmpty then
    (["Error: No command provided. Usage: describe module|project|version|release|full".data], 1)
  else if strategy = "tag".data ∨ strategy = "abbrev".data ∨ strategy = "rank".data then
    let command := args.getD 0 []
    if command = "project".data then ([Project projectName git], 0)
    else if command = "module".data then ([Module' projectName git], 0)
    else if command = "version".data then
      match Version strategy git with
      | some v => ([v], 0)
      | none => ([], 1)
    else if command = "release".data then ([Release releaseFlag git], 0)
    else if command = "full".data then
      match Version strategy git with
      | some v => ([Project projectName git ++ '-' :: (v ++ '-' :: Release releaseFlag git)], 0)
      | none => ([], 1)
    else ([], 1)
  else ([], 1)

/-! ### Lemmas about the string-operation embeddings -/

theorem splitChar_ne_nil (sep : Char) (l : List Char) : splitChar sep l ≠ [] := by
  induction l with
  | nil => simp [splitChar]
  | cons c t ih =>
    simp only [splitChar]
    split
    · simp
    · cases h : splitChar sep t <;> simp [consHead]

theorem splitChar_sep_join (sep : Char) (a b : List Char) :
    splitChar sep (a ++ sep :: b) = splitChar sep a ++ splitChar sep b := by
  induction a with
  | nil => simp [splitChar]
  | cons c t ih =>
    cases hc : c == sep with
    | true =>
      simp only [List.cons_append, splitChar, hc, if_true, List.append_eq]
      rw [ih]
    | false =>
      simp only [List.cons_append, splitChar, hc, Bool.false_eq_true, if_false, List.append_eq]
      rw [ih]
      cases hsp : splitChar sep t with
      | nil => exact absurd hsp (splitChar_ne_nil sep t)
      | cons h0 r => simp [consHead]

theorem splitChar_no_sep {sep : Char} {a : List Char} (h : sep ∉ a) :
    splitChar sep a = [a] := by
  induction a with
  | nil => rfl
  | cons c t ih =>
    have hc : (c == sep) = false := by
      rw [beq_eq_false_iff_ne]
      intro hceq
      exact h (hceq ▸ List.mem_cons_self c t)
    have ht : sep ∉ t := fun hm => h (List.mem_cons_of_mem c hm)
    simp [splitChar, hc, ih ht, consHead]

theorem splitChar_cons_of_not_mem {sep : Char} {a : List Char} (h : sep ∉ a) (b : List Char) :
    splitChar sep (a ++ sep :: b) = a :: splitChar sep b := by
  rw [splitChar_sep_join, splitChar_no_sep h]
  rfl

theorem splitN2_first {a : List Char} (h : (':' : Char) ∉ a) (b : List Char) :
    splitN2 ':' (a ++ ':' :: b) = [a, b] := by
  induction a with
  | nil => simp [splitN2]
  | cons c t ih =>
    have hc : (c == ':') = false := by
      rw [beq_eq_false_iff_ne]
      intro hceq
      exact h (hceq ▸ List.mem_cons_self c t)
    have ht : (':' : Char) ∉ t := fun hm => h (List.mem_cons_of_mem c hm)
    simp [splitN2, hc, ih ht, consHead]

theorem containsSub_of_infix {sub l : List Char} (h : sub <:+: l) : containsSub sub l = true := by
  obtain ⟨s, t, rfl⟩ := h
  induction s with
  | nil =>
    cases hsub : sub with
    | nil => cases t <;> simp [containsSub]
    | cons c cs =>
      subst hsub
      simp [containsSub, List.cons_append, List.prefix_append]
  | cons d s ih =>
    simpa [containsSub] using Or.inr ih

theorem fieldsAux_word {w : List Char} (hw : ∀ c ∈ w, goIsSpace c = false) :
    ∀ (l acc : List Char), fieldsAux (w ++ l) acc = fieldsAux l (w.reverse ++ acc) := by
  induction w with
  | nil => intro l acc; simp
  | cons c t ih =>
    intro l acc
    have hc : goIsSpace c = false := hw c (List.mem_cons_self c t)
    have ht : ∀ d ∈ t, goIsSpace d = false := fun d hd => hw d (List.mem_cons_of_mem c hd)
    simp only [List.cons_append, fieldsAux, hc, Bool.false_eq_true, if_false, List.append_eq]
    rw [ih ht]
    simp [List.append_assoc]

theorem fieldsAux_space {c : Char} (hc : goIsSpace c = true) (l acc : List Char) :
    fieldsAux (c :: l) acc =
      if acc.isEmpty then fieldsAux l [] else acc.reverse :: fieldsAux l [] := by
  simp [fieldsAux, hc]

theorem fields_fetch_line (name url : List Char) (hname0 : name ≠ [])
    (hnameNS : ∀ c ∈ name, goIsSpace c = false)
    (hurl0 : url ≠ []) (hurlNS : ∀ c ∈ url, goIsSpace c = false) :
    fields (name ++ '\t' :: (url ++ ' ' :: "(fetch)".data)) = [name, url, "(fetch)".data] := by
  rw [fields, fieldsAux_word hnameNS, fieldsAux_space (by decide)]
  rw [if_neg (by simp [List.isEmpty_iff, hname0])]
  rw [fieldsAux_word hurlNS, fieldsAux_space (by decide)]
  rw [if_neg (by simp [List.isEmpty_iff, hurl0])]
  simp only [List.append_nil, List.reverse_reverse]
  rw [show fieldsAux "(fetch)".data [] = ["(fetch)".data] from by decide]

theorem trimSuffix_append (suf x : List Char) : trimSuffix suf (x ++ suf) = x := by
  rw [trimSuffix, if_pos (by simp [List.isSuffixOf_iff_suffix])]
  simp [List.take_left']

theorem trimSuffix_of_not_suffix {suf l : List Char} (h : ¬ suf <:+ l) :
    trimSuffix suf l = l := by
  rw [trimSuffix, if_neg (by simp [List.isSuffixOf_iff_suffix, h])]

theorem suffix_through_slash {s x repo : List Char} (hs : ('/' : Char) ∉ s)
    (h : s <:+ x ++ '/' :: repo) : s <:+ repo := by
  rcases le_or_lt s.length repo.length with hle | hlt
  · have hrepo : repo <:+ x ++ '/' :: repo :=
      (List.suffix_cons '/' repo).trans (List.suffix_append x ('/' :: repo))
    exact List.suffix_of_suffix_length_le h hrepo hle
  · have hsl : '/' :: repo <:+ x ++ '/' :: repo := List.suffix_append x ('/' :: repo)
    have : '/' :: repo <:+ s :=
      List.suffix_of_suffix_length_le hsl h (by simpa using hlt)
    exact absurd (this.subset (List.mem_cons_self '/' repo)) hs

theorem takeWhile_all_stop {p : Char → Bool} :
    ∀ {a : List Char}, (∀ c ∈ a, p c = true) → ∀ {b : Char}, p b = false →
      ∀ (r : List Char), (a ++ b :: r).takeWhile p = a := by
  intro a
  induction a with
  | nil =>
    intro _ b hb r
    simp [List.takeWhile_cons, hb]
  | cons c t ih =>
    intro ha b hb r
    have hc : p c = true := ha c (List.mem_cons_self c t)
    simp only [List.cons_append, List.takeWhile_cons, hc, if_true]
    rw [ih (fun d hd => ha d (List.mem_cons_of_mem c hd)) hb r]

theorem basename_slash {x repo : List Char} (h0 : repo ≠ []) (hs : ('/' : Char) ∉ repo) :
    basename (x ++ '/' :: repo) = repo := by
  obtain ⟨lst, rrest, hrev⟩ : ∃ c t, repo.reverse = c :: t := by
    cases hr : repo.reverse with
    | nil => exact absurd (by simpa using congrArg List.reverse hr) h0
    | cons c t => exact ⟨c, t, rfl⟩
  have hlst : (lst == '/') = false := by
    rw [beq_eq_false_iff_ne]
    intro hceq
    subst hceq
    exact hs (by
      have : '/' ∈ repo.reverse := by rw [hrev]; exact List.mem_cons_self _ _
      simpa using this)
  have hrevfull : (x ++ '/' :: repo).reverse = repo.reverse ++ '/' :: x.reverse := by
    simp
  rw [basename, if_neg (by simp)]
  simp only [hrevfull, hrev, List.cons_append, List.dropWhile_cons, hlst,
    Bool.false_eq_true, if_false]
  rw [if_neg (by simp)]
  have hall : ∀ c ∈ lst :: rrest, (!(c == '/')) = true := by
    intro c hc
    have : c ∈ repo := by
      have : c ∈ repo.reverse := by rw [hrev]; exact hc
      simpa using this
    simp only [Bool.not_eq_eq_eq_not, Bool.not_true, beq_eq_false_iff_ne]
    intro hceq
    subst hceq
    exact hs this
  calc (((lst :: rrest) ++ '/' :: x.reverse).reverse.reverse.takeWhile fun c => !(c == '/')).reverse
      = (((lst :: rrest) ++ '/' :: x.reverse).takeWhile fun c => !(c == '/')).reverse := by
        rw [List.reverse_reverse]
    _ = (lst :: rrest).reverse := by rw [takeWhile_all_stop hall (by simp) x.reverse]
    _ = repo := by rw [← hrev, List.reverse_reverse]

theorem dashGTail_last_hex : ∀ {x : List Char} {c : Char},
    dashGTail (x ++ [c]) = true → isHexLower c = true := by
  intro x c h
  rcases x with _ | ⟨d, _ | ⟨e, t⟩⟩
  · simp [dashGTail] at h
  · simp [dashGTail] at h
  · simp only [List.cons_append, dashGTail, Bool.and_eq_true, List.all_eq_true] at h
    exact h.2 c (by simp)

theorem stripDashG_of_last_not_hex {c : Char} (hc : isHexLower c = false) :
    ∀ (l : List Char), stripDashG (l ++ [c]) = l ++ [c] := by
  intro l
  induction l with
  | nil => simp [stripDashG, dashGTail]
  | cons d t ih =>
    have hng : dashGTail ((d :: t) ++ [c]) = false := by
      cases hdg : dashGTail ((d :: t) ++ [c]) with
      | false => rfl
      | true => exact absurd (dashGTail_last_hex hdg) (by simp [hc])
    rw [List.cons_append] at hng
    simp only [List.cons_append, stripDashG, List.append_eq]
    rw [if_neg (by simp [hng]), ih]

theorem getD_append_pair (A : List (List Char)) (x y d : List Char) :
    (A ++ [x, y]).getD A.length d = x := by
  rw [List.getD_append_right A [x, y] d A.length le_rfl]
  simp

/-! ### Claim C4: release-number extraction -/

/-- C4 counterexample: on the claim's literal example describe output
`v1.2.3-5-gabc123` (with no trailing newline, as written in the claim) the
anchored `-g<hex>$` strip does fire, the remainder `v1.2.3-5` splits into
two pieces, and the second-to-last piece — which the claim says is the
release number — is `v1.2.3`, not `5`. -/
theorem c4_release_counterexample :
    Release true ⟨none, some ("v1.2.3-5-gabc123".data), none, none, none⟩ = "v1.2.3".data ∧
    "v1.2.3".data ≠ "5".data := by
  refine ⟨by decide, by decide⟩

/-- C4 amended: the captured describe output ends with a newline, so the
`-g<hex>` pattern — anchored at end of text — never matches and the strip is
a no-op; the raw output (hash piece included) is split on `-` and with at
least two pieces the second-to-last piece, the commit distance, is returned;
with a single piece the literal `0` is returned; with release tracking
disabled the literal `1` is returned. -/
theorem c4_release_extraction (git : GitOut) (t n h : List Char)
    (hn : ('-' : Char) ∉ n) (hh : ('-' : Char) ∉ h) :
    (git.describeRelease = some (t ++ '-' :: (n ++ '-' :: ('g' :: (h ++ ['\n'])))) →
      Release true git = n) ∧
    (('-' : Char) ∉ t → git.describeRelease = some (t ++ ['\n']) →
      Release true git = "0".data) ∧
    Release false git = "1".data := by
  refine ⟨?_, ?_, rfl⟩
  · intro hgit
    have hshape : t ++ '-' :: (n ++ '-' :: ('g' :: (h ++ ['\n']))) =
        (t ++ '-' :: (n ++ '-' :: ('g' :: h))) ++ ['\n'] := by
      simp [List.append_assoc]
    have hgq : ('-' : Char) ∉ 'g' :: (h ++ ['\n']) := by
      intro hm
      simp only [List.mem_cons, List.mem_append, List.mem_singleton] at hm
      rcases hm with hm | hm | hm
      · exact absurd hm (by decide)
      · exact hh hm
      · exact absurd hm (by decide)
    have hstrip : stripDashG (t ++ '-' :: (n ++ '-' :: ('g' :: (h ++ ['\n'])))) =
        t ++ '-' :: (n ++ '-' :: ('g' :: (h ++ ['\n']))) := by
      rw [hshape, stripDashG_of_last_not_hex (by decide)]
    have hsplit : splitChar '-' (t ++ '-' :: (n ++ '-' :: ('g' :: (h ++ ['\n'])))) =
        splitChar '-' t ++ [n, 'g' :: (h ++ ['\n'])] := by
      rw [splitChar_sep_join, splitChar_sep_join, splitChar_no_sep hn,
        splitChar_no_sep hgq]
      rfl
    simp only [Release, if_true, hgit, hstrip, hsplit]
    have hlen : (splitChar '-' t ++ [n, 'g' :: (h ++ ['\n'])]).length =
        (splitChar '-' t).length + 2 := by simp
    rw [if_pos (by omega)]
    rw [hlen]
    have : (splitChar '-' t).length + 2 - 2 = (splitChar '-' t).length := by omega
    rw [this, getD_append_pair]
  · intro ht hgit
    have hnm : ('-' : Char) ∉ t ++ ['\n'] := by
      intro hm
      rcases List.mem_append.1 hm with hm | hm
      · exact ht hm
      · exact absurd (List.mem_singleton.1 hm) (by decide)
    simp only [Release, if_true, hgit, @stripDashG_of_last_not_hex '\n' (by decide) t,
      splitChar_no_sep hnm]
    simp

/-- Witness for C4's amended theorem at the realistic newline-terminated
describe outputs. -/
theorem c4_release_extraction_witness :
    Release true ⟨none, some ("v1.2.3-5-gabc123\n".data), none, none, none⟩ = "5".data ∧
    Release true ⟨none, some ("v1.2.3\n".data), none, none, none⟩ = "0".data ∧
    Release false ⟨none, none, none, none, none⟩ = "1".data :=
  ⟨(c4_release_extraction _ "v1.2.3".data "5".data "abc123".data
      (by decide) (by decide)).1 (by rfl),
   (c4_release_extraction ⟨none, some ("v1.2.3\n".data), none, none, none⟩
      "v1.2.3".data "5".data "abc123".data (by decide) (by decide)).2.1 (by decide) (by rfl),
   (c4_release_extraction ⟨none, none, none, none, none⟩
      [] [] [] (by decide) (by decide)).2.2⟩

/-! ### Claim C2: project-name extraction (code bug) -/

/-- C2 evidence of the code bug: on a remote listing whose fetch line holds
the HTTPS URL `https://host/org/repo.git` under the remote name `upstream`,
`Project` returns the empty string instead of the claimed `org-repo`.  Two
slips in the source cause this: the output is split on the character `n`
instead of a newline (so the scanned piece is the whole output), and the
loop reads whitespace field 0 — the remote name — as the URL (`url :=
parts[0]`, part_000 line 97), which has no `://` and no `:` and is skipped.
With the conventional remote name `origin` the two slips cancel (splitting
on the `n` of `origin` makes the URL the first field of a later piece),
which is why the bug goes unnoticed; the second conjunct shows that
cancellation for contrast. -/
theorem c2_project_extraction_counterexample :
    Project [] ⟨some ("upstream\thttps://host/org/repo.git (fetch)\nupstream\thttps://host/org/repo.git (push)\n".data),
      none, none, none, none⟩ = [] ∧
    ([] : List Char) ≠ "org-repo".data ∧
    Project [] ⟨some ("origin\thttps://host/org/repo.git (fetch)\norigin\thttps://host/org/repo.git (push)\n".data),
      none, none, none, none⟩ = "org-repo".data := by
  refine ⟨by decide, by decide, by decide⟩

/-! ### Claim C7: the PROJECT_NAME override -/

/-- C7: with a nonempty `PROJECT_NAME`, both project-name and module-name
extraction return it verbatim, regardless of the remote configuration. -/
theorem c7_project_name_override (pn : List Char) (git : GitOut) (h : pn ≠ []) :
    Project pn git = pn ∧ Module' pn git = pn := by
  constructor <;> simp [Project, Module', h]

/-- Witness for C7 at `PROJECT_NAME=foo` with no remote output at all. -/
theorem c7_project_name_override_witness :
    Project "foo".data ⟨none, none, none, none, none⟩ = "foo".data ∧
    Module' "foo".data ⟨none, none, none, none, none⟩ = "foo".data :=
  c7_project_name_override "foo".data ⟨none, none, none, none, none⟩ (by decide)

/-! ### Claim C8: strategy and command validation -/

/-- C8: on a plain invocation (help/version flags unset), an unrecognized
`-s` strategy value makes the describe tool exit 1 with no output, and so
does an unrecognized positional command under any valid strategy. -/
theorem c8_unknown_strategy_or_command (releaseFlag : Bool) (strategy : List Char)
    (args : List (List Char)) (projectName : List Char) (git : GitOut) :
    (strategy ≠ "tag".data → strategy ≠ "abbrev".data → strategy ≠ "rank".data →
      args ≠ [] →
      describeMain false false releaseFlag strategy args projectName git = ([], 1)) ∧
    (∀ command rest, args = command :: rest →
      command ≠ "project".data → command ≠ "module".data → command ≠ "version".data →
      command ≠ "release".data → command ≠ "full".data →
      (strategy = "tag".data ∨ strategy = "abbrev".data ∨ strategy = "rank".data) →
      describeMain false false releaseFlag strategy args projectName git = ([], 1)) := by
  constructor
  · intro h1 h2 h3 h4
    simp [describeMain, h1, h2, h3, h4]
  · rintro command rest rfl h1 h2 h3 h4 h5 hstrat
    simp [describeMain, h1, h2, h3, h4, h5, hstrat]

/-- Witness for C8: a bogus strategy with the `project` command, and a bogus
command under the default `tag` strategy. -/
theorem c8_unknown_strategy_or_command_witness :
    describeMain false false false "bogus".data ["project".data] []
      ⟨none, none, none, none, none⟩ = ([], 1) ∧
    describeMain false false false "tag".data ["frobnicate".data] []
      ⟨none, none, none, none, none⟩ = ([], 1) :=
  ⟨(c8_unknown_strategy_or_command false "bogus".data ["project".data] []
      ⟨none, none, none, none, none⟩).1 (by decide) (by decide) (by decide) (by decide),
   (c8_unknown_strategy_or_command false "tag".data ["frobnicate".data] []
      ⟨none, none, none, none, none⟩).2 "frobnicate".data [] rfl
      (by decide) (by decide) (by decide) (by decide) (by decide) (Or.inl rfl)⟩

/-! ### Claims C6 and C10: module-name extraction -/

/-- Evaluation of `Module'` on a remote listing whose first line is a
well-formed fetch line `<name>\t<url> (fetch)`: the result is the basename
of the `.git`-stripped part of the URL after its first colon. -/
theorem Module_fetch_line (git : GitOut) (name url x after rest : List Char)
    (hname0 : name ≠ []) (hnameNS : ∀ c ∈ name, goIsSpace c = false)
    (hurl0 : url ≠ []) (hurlNS : ∀ c ∈ url, goIsSpace c = false)
    (hsplit : splitN2 ':' url = [x, after])
    (hgit : git.remoteV =
      some ((name ++ '\t' :: (url ++ ' ' :: "(fetch)".data)) ++ '\n' :: rest)) :
    Module' [] git = basename (trimSuffix ".git".data after) := by
  have hlineNN : ('\n' : Char) ∉ name ++ '\t' :: (url ++ ' ' :: "(fetch)".data) := by
    intro hm
    simp only [List.mem_append, List.mem_cons] at hm
    rcases hm with hm | hm | hm | hm | hm
    · have := hnameNS _ hm; simp [goIsSpace] at this
    · exact absurd hm (by decide)
    · have := hurlNS _ hm; simp [goIsSpace] at this
    · exact absurd hm (by decide)
    · exact absurd hm (by decide)
  have hsplitNL : splitChar '\n' ((name ++ '\t' :: (url ++ ' ' :: "(fetch)".data)) ++ '\n' :: rest) =
      (name ++ '\t' :: (url ++ ' ' :: "(fetch)".data)) :: splitChar '\n' rest :=
    splitChar_cons_of_not_mem hlineNN rest
  have hfetch : containsSub "fetch".data (name ++ '\t' :: (url ++ ' ' :: "(fetch)".data)) = true := by
    apply containsSub_of_infix
    exact ⟨name ++ '\t' :: (url ++ [' ', '(']), [')'], by simp⟩
  have hfields := fields_fetch_line name url hname0 hnameNS hurl0 hurlNS
  simp only [Module', ne_eq, not_true_eq_false, if_false, hgit, hsplitNL, scanLines,
    moduleLine, hfetch, if_true, hfields]
  rw [if_neg (by norm_num), show ([name, url, "(fetch)".data].getD 1 []) = url from rfl, hsplit]

/-- C6: for every SSH-shorthand remote URL `user@host:org/repo`, optionally
suffixed `.git`, in the URL field of the leading fetch line, module-name
extraction with `PROJECT_NAME` unset yields `repo`: the URL is split at its
first `:`, the path part has a `.git` suffix stripped, and its basename is
taken. -/
theorem c6_module_ssh_extraction (name user host org repo rest url : List Char)
    (withGit : Bool) (git : GitOut)
    (hname0 : name ≠ []) (hnameNS : ∀ c ∈ name, goIsSpace c = false)
    (huserNS : ∀ c ∈ user, goIsSpace c = false) (huserNC : (':' : Char) ∉ user)
    (hhostNS : ∀ c ∈ host, goIsSpace c = false) (hhostNC : (':' : Char) ∉ host)
    (horgNS : ∀ c ∈ org, goIsSpace c = false)
    (hrepo0 : repo ≠ []) (hrepoNS : ∀ c ∈ repo, goIsSpace c = false)
    (hrepoSl : ('/' : Char) ∉ repo) (hrepoGit : ¬ (".git".data <:+ repo))
    (hurl : url = user ++ '@' :: (host ++ ':' ::
      (org ++ '/' :: (repo ++ (if withGit then ".git".data else [])))))
    (hgit : git.remoteV =
      some ((name ++ '\t' :: (url ++ ' ' :: "(fetch)".data)) ++ '\n' :: rest)) :
    Module' [] git = repo := by
  have hgitchars : ∀ c ∈ ".git".data, goIsSpace c = false := by decide
  have hurlNS : ∀ c ∈ url, goIsSpace c = false := by
    subst hurl
    intro c hc
    simp only [List.mem_append, List.mem_cons] at hc
    rcases hc with hc | hc | hc | hc | hc | hc | hc
    · exact huserNS c hc
    · subst hc; decide
    · exact hhostNS c hc
    · subst hc; decide
    · exact horgNS c hc
    · subst hc; decide
    · rcases hc with hc | hc
      · exact hrepoNS c hc
      · cases withGit with
        | true => exact hgitchars c (by simpa using hc)
        | false => simp at hc
  have hurl0 : url ≠ [] := by
    subst hurl
    simp
  have hxNC : (':' : Char) ∉ user ++ '@' :: host := by
    intro hm
    rcases List.mem_append.1 hm with hm | hm
    · exact huserNC hm
    · rcases List.mem_cons.1 hm with hm | hm
      · exact absurd hm (by decide)
      · exact hhostNC hm
  have hshape : url = (user ++ '@' :: host) ++ ':' ::
      (org ++ '/' :: (repo ++ (if withGit then ".git".data else []))) := by
    rw [hurl]
    simp [List.append_assoc]
  have hsplit : splitN2 ':' url = [user ++ '@' :: host,
      org ++ '/' :: (repo ++ (if withGit then ".git".data else []))] := by
    rw [hshape]
    exact splitN2_first hxNC _
  rw [Module_fetch_line git name url (user ++ '@' :: host)
    (org ++ '/' :: (repo ++ (if withGit then ".git".data else []))) rest
    hname0 hnameNS hurl0 hurlNS hsplit hgit]
  have htrim : trimSuffix ".git".data
      (org ++ '/' :: (repo ++ (if withGit then ".git".data else []))) =
      org ++ '/' :: repo := by
    cases withGit with
    | true =>
      have : org ++ '/' :: (repo ++ ".git".data) = (org ++ '/' :: repo) ++ ".git".data := by
        simp [List.append_assoc]
      rw [if_pos rfl, this, trimSuffix_append]
    | false =>
      rw [if_neg (by simp), List.append_nil]
      apply trimSuffix_of_not_suffix
      intro hsuf
      exact hrepoGit (suffix_through_slash (by decide) hsuf)
  rw [htrim, basename_slash hrepo0 hrepoSl]

/-- Witness for C6 at the concrete remote line
`origin <tab> git@example.com:acme/widget.git (fetch)`. -/
theorem c6_module_ssh_extraction_witness :
    Module' [] ⟨some ("origin\tgit@example.com:acme/widget.git (fetch)\n".data),
      none, none, none, none⟩ = "widget".data :=
  c6_module_ssh_extraction "origin".data "git".data "example.com".data "acme".data
    "widget".data [] "git@example.com:acme/widget.git".data true
    ⟨some ("origin\tgit@example.com:acme/widget.git (fetch)\n".data), none, none, none, none⟩
    (by decide) (by decide) (by decide) (by decide) (by decide) (by decide) (by decide)
    (by decide) (by decide) (by decide) (by decide) (by decide) (by decide)

/-- C10: module-name extraction also succeeds on HTTPS-form URLs
`scheme://host/org/repo`, optionally suffixed `.git`: the URL is split at
its first colon (the one after the scheme), `.git` is stripped, and the
final path component `repo` is returned. -/
theorem c10_module_https_extraction (name scheme host org repo rest url : List Char)
    (withGit : Bool) (git : GitOut)
    (hname0 : name ≠ []) (hnameNS : ∀ c ∈ name, goIsSpace c = false)
    (hschemeNS : ∀ c ∈ scheme, goIsSpace c = false) (hschemeNC : (':' : Char) ∉ scheme)
    (hhostNS : ∀ c ∈ host, goIsSpace c = false)
    (horgNS : ∀ c ∈ org, goIsSpace c = false)
    (hrepo0 : repo ≠ []) (hrepoNS : ∀ c ∈ repo, goIsSpace c = false)
    (hrepoSl : ('/' : Char) ∉ repo) (hrepoGit : ¬ (".git".data <:+ repo))
    (hurl : url = scheme ++ ':' :: ('/' :: ('/' ::
      (host ++ '/' :: (org ++ '/' :: (repo ++ (if withGit then ".git".data else [])))))))
    (hgit : git.remoteV =
      some ((name ++ '\t' :: (url ++ ' ' :: "(fetch)".data)) ++ '\n' :: rest)) :
    Module' [] git = repo := by
  have hgitchars : ∀ c ∈ ".git".data, goIsSpace c = false := by decide
  have hurlNS : ∀ c ∈ url, goIsSpace c = false := by
    subst hurl
    intro c hc
    simp only [List.mem_append, List.mem_cons] at hc
    rcases hc with hc | hc | hc | hc | hc | hc | hc | hc | hc
    · exact hschemeNS c hc
    · subst hc; decide
    · subst hc; decide
    · subst hc; decide
    · exact hhostNS c hc
    · subst hc; decide
    · exact horgNS c hc
    · subst hc; decide
    · rcases hc with hc | hc
      · exact hrepoNS c hc
      · cases withGit with
        | true => exact hgitchars c (by simpa using hc)
        | false => simp at hc
  have hurl0 : url ≠ [] := by
    subst hurl
    simp
  have hsplit : splitN2 ':' url = [scheme, '/' :: ('/' ::
      (host ++ '/' :: (org ++ '/' :: (repo ++ (if withGit then ".git".data else [])))))] := by
    rw [hurl]
    exact splitN2_first hschemeNC _
  rw [Module_fetch_line git name url scheme
    ('/' :: ('/' :: (host ++ '/' :: (org ++ '/' ::
      (repo ++ (if withGit then ".git".data else [])))))) rest
    hname0 hnameNS hurl0 hurlNS hsplit hgit]
  have hshape2 : '/' :: ('/' :: (host ++ '/' :: (org ++ '/' ::
      (repo ++ (if withGit then ".git".data else []))))) =
      ('/' :: ('/' :: (host ++ '/' :: org))) ++ '/' ::
        (repo ++ (if withGit then ".git".data else [])) := by
    simp [List.append_assoc]
  rw [hshape2]
  have htrim : trimSuffix ".git".data
      (('/' :: ('/' :: (host ++ '/' :: org))) ++ '/' ::
        (repo ++ (if withGit then ".git".data else []))) =
      ('/' :: ('/' :: (host ++ '/' :: org))) ++ '/' :: repo := by
    cases withGit with
    | true =>
      have : ('/' :: ('/' :: (host ++ '/' :: org))) ++ '/' :: (repo ++ ".git".data) =
          (('/' :: ('/' :: (host ++ '/' :: org))) ++ '/' :: repo) ++ ".git".data := by
        simp [List.append_assoc]
      rw [if_pos rfl, this, trimSuffix_append]
    | false =>
      rw [if_neg (by simp), List.append_nil]
      apply trimSuffix_of_not_suffix
      intro hsuf
      exact hrepoGit (suffix_through_slash (by decide) hsuf)
  rw [htrim, basename_slash hrepo0 hrepoSl]

/-- Witness for C10 at the concrete remote line
`origin <tab> https://example.com/acme/widget.git (fetch)`. -/
theorem c10_module_https_extraction_witness :
    Module' [] ⟨some ("origin\thttps://example.com/acme/widget.git (fetch)\n".data),
      none, none, none, none⟩ = "widget".data :=
  c10_module_https_extraction "origin".data "https".data "example.com".data "acme".data
    "widget".data [] "https://example.com/acme/widget.git".data true
    ⟨some ("origin\thttps://example.com/acme/widget.git (fetch)\n".data), none, none, none, none⟩
    (by decide) (by decide) (by decide) (by decide) (by decide) (by decide) (by decide)
    (by decide) (by decide) (by decide) (by decide) (by decide)

/-! ### Claim C3: the abbrev versioning strategy

Order-theoretic facts about `lexLe` and `sortStrings`, used to show that the
sort-then-take-last computation of `versionAbbrev` returns the lexically
greatest collected entry. -/

theorem lexLe_refl (a : List Char) : lexLe a a = true := by
  induction a with
  | nil => rfl
  | cons x xs ih => simp [lexLe, ih]

theorem lexLe_total (a b : List Char) : lexLe a b = true ∨ lexLe b a = true := by
  induction a generalizing b with
  | nil => exact Or.inl rfl
  | cons x xs ih =>
    cases b with
    | nil => exact Or.inr rfl
    | cons y ys =>
      by_cases hxy : x = y
      · subst hxy
        simpa [lexLe] using ih ys
      · have h1 : (x == y) = false := by simp [hxy]
        have h2 : (y == x) = false := by simp [Ne.symm hxy]
        rcases lt_or_gt_of_ne hxy with hlt | hlt
        · exact Or.inl (by simp [lexLe, h1, hlt])
        · exact Or.inr (by simp [lexLe, h2, hlt])

theorem lexLe_trans : ∀ {a b c : List Char},
    lexLe a b = true → lexLe b c = true → lexLe a c = true := by
  intro a
  induction a with
  | nil => intro b c _ _; rfl
  | cons x xs ih =>
    intro b c hab hbc
    cases b with
    | nil => simp [lexLe] at hab
    | cons y ys =>
      cases c with
      | nil => simp [lexLe] at hbc
      | cons z zs =>
        simp only [lexLe] at hab hbc ⊢
        by_cases hxy : x = y
        · subst hxy
          rw [if_pos (by simp)] at hab
          by_cases hxz : x = z
          · subst hxz
            rw [if_pos (by simp)] at hbc ⊢
            exact ih hab hbc
          · rw [if_neg (by simp [hxz])] at hbc ⊢
            exact hbc
        · rw [if_neg (by simp [hxy])] at hab
          by_cases hyz : y = z
          · subst hyz
            rw [if_neg (by simp [hxy])]
            exact hab
          · rw [if_neg (by simp [hyz])] at hbc
            have hxz : x < z :=
              lt_trans (of_decide_eq_true hab) (of_decide_eq_true hbc)
            rw [if_neg (by simp [ne_of_lt hxz])]
            exact decide_eq_true hxz

theorem lexLe_antisymm : ∀ {a b : List Char},
    lexLe a b = true → lexLe b a = true → a = b := by
  intro a
  induction a with
  | nil =>
    intro b _ hba
    cases b with
    | nil => rfl
    | cons y ys => simp [lexLe] at hba
  | cons x xs ih =>
    intro b hab hba
    cases b with
    | nil => simp [lexLe] at hab
    | cons y ys =>
      by_cases hxy : x = y
      · subst hxy
        simp only [lexLe, beq_self_eq_true, if_true] at hab hba
        rw [ih hab hba]
      · have h1 : (x == y) = false := by simp [hxy]
        have h2 : (y == x) = false := by simp [Ne.symm hxy]
        simp only [lexLe, h1, h2, Bool.false_eq_true, if_false, decide_eq_true_eq] at hab hba
        exact absurd hba (not_lt_of_gt hab)

instance : IsTotal (List Char) (fun a b => lexLe a b = true) := ⟨lexLe_total⟩

instance : IsTrans (List Char) (fun a b => lexLe a b = true) := ⟨fun _ _ _ => lexLe_trans⟩

theorem sorted_lexLe_getLastD :
    ∀ (l : List (List Char)), l.Sorted (fun a b => lexLe a b = true) →
      ∀ x ∈ l, ∀ d, lexLe x (l.getLastD d) = true := by
  intro l
  induction l with
  | nil => intro _ x hx; simp at hx
  | cons a t ih =>
    intro hs x hx d
    rw [List.getLastD_cons]
    rcases List.mem_cons.1 hx with rfl | hx
    · cases t with
      | nil => simpa using lexLe_refl x
      | cons b t2 =>
        have hxb : lexLe x b = true := (List.sorted_cons.1 hs).1 b (by simp)
        exact lexLe_trans hxb (ih (List.sorted_cons.1 hs).2 b (by simp) x)
    · exact ih (List.sorted_cons.1 hs).2 x hx a

/-- Greatest element of `v0 :: l` in the `lexLe` order, computed by a fold:
the specification-side formulation of picking the lexically greatest
collected entry. -/
def lexMaxFold (v0 : List Char) (l : List (List Char)) : List Char :=
  l.foldl (fun m x => if lexLe m x then x else m) v0

theorem lexMaxFold_mem : ∀ (l : List (List Char)) (v0 : List Char),
    lexMaxFold v0 l ∈ v0 :: l := by
  intro l
  induction l with
  | nil => intro v0; simp [lexMaxFold]
  | cons x t ih =>
    intro v0
    have step : lexMaxFold v0 (x :: t) = lexMaxFold (if lexLe v0 x then x else v0) t := rfl
    rw [step]
    have := ih (if lexLe v0 x then x else v0)
    by_cases h : lexLe v0 x = true
    · rw [if_pos h] at this
      rcases List.mem_cons.1 this with heq | hmem
      · rw [if_pos h, heq]; simp
      · rw [if_pos h]; simp [hmem]
    · rw [if_neg h] at this
      rcases List.mem_cons.1 this with heq | hmem
      · rw [if_neg h, heq]; simp
      · rw [if_neg h]; simp [hmem]

theorem lexMaxFold_ge : ∀ (l : List (List Char)) (v0 : List Char),
    lexLe v0 (lexMaxFold v0 l) = true ∧ ∀ x ∈ l, lexLe x (lexMaxFold v0 l) = true := by
  intro l
  induction l with
  | nil => intro v0; exact ⟨lexLe_refl v0, by simp⟩
  | cons x t ih =>
    intro v0
    have step : lexMaxFold v0 (x :: t) = lexMaxFold (if lexLe v0 x then x else v0) t := rfl
    have hm1 : lexLe v0 (if lexLe v0 x then x else v0) = true := by
      by_cases h : lexLe v0 x = true
      · rw [if_pos h]; exact h
      · rw [if_neg h]; exact lexLe_refl v0
    have hm2 : lexLe x (if lexLe v0 x then x else v0) = true := by
      by_cases h : lexLe v0 x = true
      · rw [if_pos h]; exact lexLe_refl x
      · rw [if_neg h]
        rcases lexLe_total v0 x with htot | htot
        · exact absurd htot h
        · exact htot
    obtain ⟨ha, hb⟩ := ih (if lexLe v0 x then x else v0)
    refine ⟨step ▸ lexLe_trans hm1 ha, ?_⟩
    intro y hy
    rcases List.mem_cons.1 hy with rfl | hy
    · exact step ▸ lexLe_trans hm2 ha
    · exact step ▸ hb y hy

theorem sortStrings_getLastD_eq_fold (v0 : List Char) (l : List (List Char)) :
    (sortStrings (v0 :: l)).getLastD [] = lexMaxFold v0 l := by
  have hsorted : (sortStrings (v0 :: l)).Sorted (fun a b => lexLe a b = true) :=
    List.sorted_insertionSort _ (v0 :: l)
  have hne : sortStrings (v0 :: l) ≠ [] := by
    intro h
    have hlen := congrArg List.length h
    rw [show sortStrings (v0 :: l) =
      List.insertionSort (fun a b => lexLe a b = true) (v0 :: l) from rfl,
      List.length_insertionSort] at hlen
    simp at hlen
  obtain ⟨a, t, heq⟩ : ∃ a t, sortStrings (v0 :: l) = a :: t := by
    cases hc : sortStrings (v0 :: l) with
    | nil => exact absurd hc hne
    | cons a t => exact ⟨a, t, rfl⟩
  have hmemS : (sortStrings (v0 :: l)).getLastD [] ∈ v0 :: l := by
    rw [← List.mem_insertionSort (fun a b => lexLe a b = true)]
    show (sortStrings (v0 :: l)).getLastD [] ∈ sortStrings (v0 :: l)
    rw [heq, List.getLastD_cons]
    exact List.getLastD_mem_cons t a
  have hboundS : ∀ x ∈ v0 :: l, lexLe x ((sortStrings (v0 :: l)).getLastD []) = true := by
    intro x hx
    exact sorted_lexLe_getLastD _ hsorted x
      ((List.mem_insertionSort (fun a b => lexLe a b = true)).2 hx) []
  obtain ⟨hge0, hgeAll⟩ := lexMaxFold_ge l v0
  apply lexLe_antisymm
  · rcases List.mem_cons.1 hmemS with heq0 | hmem
    · rw [heq0]; exact hge0
    · exact hgeAll _ hmem
  · exact hboundS _ (lexMaxFold_mem l v0)

theorem collectV_eq (f : List Char → List Char) :
    ∀ l : List (List Char),
      collectV f l = (l.filter fun piece => ['v'].isPrefixOf piece).map f := by
  intro l
  induction l with
  | nil => rfl
  | cons line rest ih =>
    cases h : ['v'].isPrefixOf line with
    | true => simp [collectV, h, List.filter_cons, ih]
    | false => simp [collectV, h, List.filter_cons, ih]

/-- C3 counterexample: on the single-line describe output `v1.2.3-5-gab`
the abbrev strategy returns `1.2.3~5ab` — only the literal `-g` is removed
(part_000 line 231), the hash characters `ab` remain — not the `1.2.3~5`
that full removal of the `-g<hash>` marker would give. -/
theorem c3_version_abbrev_counterexample :
    versionAbbrev ⟨none, none, none, some ("v1.2.3-5-gab\n".data), none⟩ = "1.2.3~5ab".data ∧
    "1.2.3~5ab".data ≠ "1.2.3~5".data := by
  refine ⟨by decide, by decide⟩

/-- Specification-style reformulation of the (amended) abbrev strategy: on
the `n`-separated pieces of the whitespace-trimmed output, keep those
beginning with `v`, remove the first literal `-g` and turn the first `-`
into `~` on each, and return the lexically greatest result with a leading
`v` stripped, the empty string when nothing was kept. -/
def versionAbbrevSpec (git : GitOut) : List Char :=
  match git.describeAbbrev with
  | none => []
  | some output =>
    match ((splitChar 'n' (trimSpace output)).filter fun piece => ['v'].isPrefixOf piece).map
        (fun piece => replaceFirst ['-'] ['~'] (replaceFirst ['-', 'g'] [] piece)) with
    | [] => []
    | v0 :: vrest => trimPrefixV (lexMaxFold v0 vrest)

/-- C3 amended: the loop-and-sort computation of `versionAbbrev` agrees, on
every describe output, with the filter/map/greatest pipeline
`versionAbbrevSpec` — the collected entries are the `v`-prefixed pieces of
the `n`-split of the trimmed output, each with its first literal `-g`
removed (hash characters kept) and first `-` turned into `~`, and the entry
returned is the lexically greatest one, `v`-stripped. -/
theorem c3_version_abbrev_agrees_with_spec (git : GitOut) :
    versionAbbrev git = versionAbbrevSpec git := by
  cases hg : git.describeAbbrev with
  | none => simp [versionAbbrev, versionAbbrevSpec, hg]
  | some output =>
    simp only [versionAbbrev, versionAbbrevSpec, hg]
    rw [collectV_eq]
    cases hvs : ((splitChar 'n' (trimSpace output)).filter fun piece =>
        ['v'].isPrefixOf piece).map
        (fun piece => replaceFirst ['-'] ['~'] (replaceFirst ['-', 'g'] [] piece)) with
    | nil => simp
    | cons v0 vrest =>
      simp only [List.isEmpty_cons, Bool.false_eq_true, if_false]
      rw [sortStrings_getLastD_eq_fold]
